import Mathlib

set_option maxRecDepth 20000

/-!
Shallow embedding of the attendance reconciliation scripts
(GenerateAttendanceSheet.py and GenerateAttendanceSummary.py).
Strings are modelled over their character lists; the Python string
operations used by the scripts are reproduced on ASCII data.
-/

/-- ASCII lowercasing of a single character, as Python str.lower acts on ASCII. -/
def lowerChar (c : Char) : Char :=
  if 'A' ≤ c ∧ c ≤ 'Z' then Char.ofNat (c.toNat + 32) else c

/-- Python whitespace characters (the class stripped by str.strip and split by str.split). -/
def isPyWs (c : Char) : Bool :=
  c == ' ' || c == '\t' || c == '\n' || c == '\r' || c == '\x0b' || c == '\x0c'

/-- Characters kept by the regex [^a-z0-9] deletion in normalize_name. -/
def isAlnumLower (c : Char) : Bool :=
  (decide ('a' ≤ c) && decide (c ≤ 'z')) || (decide ('0' ≤ c) && decide (c ≤ '9'))

/-- Core of normalize_name on character lists: lowercase, then delete
every character that is not a lowercase ASCII letter or digit. -/
def normChars (l : List Char) : List Char :=
  (l.map lowerChar).filter isAlnumLower

/-- normalize_name from GenerateAttendanceSheet.py:
re.sub applied to name.lower() deleting every character outside [a-z0-9]. -/
def normalize_name (s : String) : String :=
  ⟨normChars s.data⟩

/-- Python str.strip: drop leading and trailing whitespace. -/
def stripChars (l : List Char) : List Char :=
  ((l.dropWhile isPyWs).reverse.dropWhile isPyWs).reverse

/-- Helper for Python str.split with no separator: accumulate the current word. -/
def splitWsAux : List Char → List Char → List (List Char)
  | [], acc => if acc.isEmpty then [] else [acc.reverse]
  | c :: rest, acc =>
    if isPyWs c then
      if acc.isEmpty then splitWsAux rest [] else acc.reverse :: splitWsAux rest []
    else splitWsAux rest (c :: acc)

/-- Python str.split with no separator: split on whitespace runs, no empty words. -/
def splitWs (l : List Char) : List (List Char) :=
  splitWsAux l []

/-- Whether the second list starts with the first (case-sensitive). -/
def startsWithChars : List Char → List Char → Bool
  | [], _ => true
  | _ :: _, [] => false
  | a :: as, b :: bs => a == b && startsWithChars as bs

/-- Whether the second list starts with the first, compared case-insensitively. -/
def startsWithCI : List Char → List Char → Bool
  | [], _ => true
  | _ :: _, [] => false
  | a :: as, b :: bs => lowerChar a == lowerChar b && startsWithCI as bs

/-- Python substring test: the first list occurs contiguously inside the second. -/
def occursIn (needle : List Char) : List Char → Bool
  | [] => needle.isEmpty
  | c :: rest => startsWithChars needle (c :: rest) || occursIn needle rest

/-- Python membership test of a single character in a string. -/
def containsChar (c : Char) : List Char → Bool
  | [] => false
  | d :: rest => d == c || containsChar c rest

/-- Helper for removing all occurrences: n counts characters still to delete. -/
def removeAllCSAux (pat : List Char) : List Char → Nat → List Char
  | [], _ => []
  | c :: rest, n =>
    match n with
    | Nat.succ m => removeAllCSAux pat rest m
    | 0 =>
      if startsWithChars pat (c :: rest) then removeAllCSAux pat rest (pat.length - 1)
      else c :: removeAllCSAux pat rest 0

/-- Python str.replace(pat, ""): delete all non-overlapping occurrences of pat,
left to right, case-sensitively.  An empty pattern leaves the string unchanged
(re.sub of an empty pattern with an empty replacement also returns the input). -/
def removeAllCS (s pat : List Char) : List Char :=
  if pat.isEmpty then s else removeAllCSAux pat s 0

/-- Helper for case-insensitive removal of all occurrences. -/
def removeAllCIAux (pat : List Char) : List Char → Nat → List Char
  | [], _ => []
  | c :: rest, n =>
    match n with
    | Nat.succ m => removeAllCIAux pat rest m
    | 0 =>
      if startsWithCI pat (c :: rest) then removeAllCIAux pat rest (pat.length - 1)
      else c :: removeAllCIAux pat rest 0

/-- re.sub(re.escape(pat), "", s, flags=IGNORECASE): delete all non-overlapping
occurrences of the literal pat, left to right, case-insensitively. -/
def removeAllCI (s pat : List Char) : List Char :=
  if pat.isEmpty then s else removeAllCIAux pat s 0

/-- Automaton for re.sub of a non-greedy parenthesized segment.
The buffer holds, in reverse, the characters consumed since an unresolved
opening parenthesis; an empty buffer means scanning outside a candidate match. -/
def rpAux : List Char → List Char → List Char
  | [], buf => buf.reverse
  | c :: rest, buf =>
    if buf.isEmpty then
      if c == '(' then rpAux rest [c] else c :: rpAux rest []
    else
      if c == ')' then rpAux rest []
      else if c == '\n' then buf.reverse ++ '\n' :: rpAux rest []
      else rpAux rest (c :: buf)

/-- re.sub of a parenthesized group - removes every shortest segment from an
opening parenthesis to the next closing one, the dot not crossing newlines. -/
def removeParen (l : List Char) : List Char :=
  rpAux l []

/-- The regex deleting a whitespace run followed by a final "greens",
case-insensitively, anchored at the end of the string. -/
def stripGreensCI (l : List Char) : List Char :=
  let r := l.reverse
  if (r.take 6).map lowerChar = "sneerg".data then
    match r.drop 6 with
    | [] => l
    | c :: _ => if isPyWs c then ((r.drop 6).dropWhile isPyWs).reverse else l
  else l

/-- The cleaned key of a group name in build_group_lookup:
strip a trailing whitespace-plus-greens suffix, then strip, then lowercase. -/
def cleanedChars (g : String) : List Char :=
  (stripChars (stripGreensCI g.data)).map lowerChar

/-- The initials key of a group name: first character of each word of the cleaned key. -/
def initialsOf (g : String) : List Char :=
  (splitWs (cleanedChars g)).filterMap List.head?

/-- Python dict insertion: an existing key keeps its position and gets the new
value, a new key is appended at the end. -/
def dictInsert (d : List (List Char × String)) (k : List Char) (v : String) :
    List (List Char × String) :=
  if d.any (fun p => p.1 == k) then
    d.map (fun p => if p.1 = k then (k, v) else p)
  else d ++ [(k, v)]

/-- Python dict lookup on the association-list model. -/
def lookupFind (d : List (List Char × String)) (k : List Char) : Option String :=
  (d.find? (fun p => p.1 == k)).map (fun p => p.2)

/-- One iteration of the loop body of build_group_lookup. -/
def insertGroup (d : List (List Char × String)) (g : String) : List (List Char × String) :=
  let cleaned := cleanedChars g
  let d1 := dictInsert d cleaned g
  if (splitWs cleaned).length > 1 then dictInsert d1 (initialsOf g) g else d1

/-- build_group_lookup from GenerateAttendanceSheet.py. -/
def build_group_lookup (groups_list : List String) : List (List Char × String) :=
  groups_list.foldl insertGroup []

/-- The branch structure of find_best_group_match on the word list of the
lowercased user name: a two-word key is tried when at least two words exist,
then the first word alone, else "Unknown". -/
def matchFromParts (lu : List (List Char × String)) : List (List Char) → String
  | [] => "Unknown"
  | [p1] =>
    match lookupFind lu p1 with
    | some g => g
    | none => "Unknown"
  | p1 :: p2 :: _ =>
    match lookupFind lu (p1 ++ ' ' :: p2) with
    | some g => g
    | none =>
      match lookupFind lu p1 with
      | some g => g
      | none => "Unknown"

/-- find_best_group_match from GenerateAttendanceSheet.py. -/
def find_best_group_match (user_name : String) (lu : List (List Char × String)) : String :=
  matchFromParts lu (splitWs (user_name.data.map lowerChar))

/-- A row of the participants table (columns user_name and email, blanks filled with ""). -/
structure ParticipantRecord where
  user_name : String
  email : String
deriving DecidableEq

/-- A row of the registrants table (columns Billing-Email, First Name, Last Name,
Preferred Name, blanks filled with ""). -/
structure RegistrantRecord where
  billing_email : String
  first_name : String
  last_name : String
  preferred_name : String
deriving DecidableEq

/-- A row of the delegates table (columns full_name and email). -/
structure DelegateRecord where
  full_name : String
  email : String
deriving DecidableEq

/-- One output row of analyze_attendance, as written to the attendance CSV. -/
structure AnnotatedRecord where
  zoom_user_name : String
  email : String
  local_group : String
  registered_label : String
  delegate_label : String
  match_rule : String
deriving DecidableEq

/-- str(email).lower().strip() - the comparison form of an email address. -/
def emailNorm (s : String) : List Char :=
  stripChars (s.data.map lowerChar)

/-- The lowered stripped Zoom email of a participant. -/
def zoomEmailOf (p : ParticipantRecord) : List Char :=
  emailNorm p.email

/-- The potential name: the user name with parenthesized segments removed and
stripped; when a group was matched, all case-insensitive occurrences of the
group name base (the group with every " Greens" removed) are deleted, then strip. -/
def potential_name_chars (user_name : String) (local_group : String) : List Char :=
  let pn := stripChars (removeParen user_name.data)
  if local_group = "Unknown" then pn
  else stripChars (removeAllCI pn (removeAllCS local_group.data " Greens".data))

/-- The potential name of a participant given the group lookup. -/
def pnOf (lu : List (List Char × String)) (p : ParticipantRecord) : List Char :=
  potential_name_chars p.user_name (find_best_group_match p.user_name lu)

/-- First registrant row whose lowered stripped billing email equals the Zoom email. -/
def firstRegEmailMatch (regs : List RegistrantRecord) (ze : List Char) :
    Option RegistrantRecord :=
  regs.find? (fun r => emailNorm r.billing_email == ze)

/-- The CiviCRM sort name built in the registrant name-match loop:
Last Name, followed by a comma and space, followed by First Name. -/
def sortNameOf (r : RegistrantRecord) : List Char :=
  r.last_name.data ++ ',' :: ' ' :: r.first_name.data

/-- Python sort_name.split(",", 1): the part before the first comma and the part after. -/
def splitFirstComma : List Char → (List Char × List Char)
  | [] => ([], [])
  | c :: rest =>
    if c == ',' then ([], rest)
    else ((splitFirstComma rest).1.cons c, (splitFirstComma rest).2)

/-- The bidirectional containment test of the registrant name-match loop body. -/
def regNameHit (nzn : List Char) (r : RegistrantRecord) : Bool :=
  let sn := sortNameOf r
  if containsChar ',' sn then
    let pieces := splitFirstComma sn
    let last := stripChars pieces.1
    let first := stripChars pieces.2
    let nrn := normChars (first ++ last)
    occursIn nrn nzn || occursIn nzn nrn
  else false

/-- First registrant row matched by the name containment test. -/
def firstRegNameMatch (regs : List RegistrantRecord) (nzn : List Char) :
    Option RegistrantRecord :=
  regs.find? (regNameHit nzn)

/-- First delegate row whose lowered stripped email equals the Zoom email. -/
def firstDelEmailMatch (dels : List DelegateRecord) (ze : List Char) :
    Option DelegateRecord :=
  dels.find? (fun d => emailNorm d.email == ze)

/-- The bidirectional containment test of the delegate name-match loop body. -/
def delNameHit (nzn : List Char) (d : DelegateRecord) : Bool :=
  let ndn := normChars d.full_name.data
  occursIn ndn nzn || occursIn nzn ndn

/-- First delegate row matched by the name containment test. -/
def firstDelNameMatch (dels : List DelegateRecord) (nzn : List Char) :
    Option DelegateRecord :=
  dels.find? (delNameHit nzn)

/-- Whether the registrant email attempt fires: non-empty Zoom email with a match. -/
def regEmailHit (regs : List RegistrantRecord) (ze : List Char) : Bool :=
  !ze.isEmpty && (firstRegEmailMatch regs ze).isSome

/-- Whether the registrant name attempt finds a row. -/
def regNameHitB (regs : List RegistrantRecord) (pn : List Char) : Bool :=
  (firstRegNameMatch regs (normChars pn)).isSome

/-- is_registered after step 3 of the analysis loop: the email attempt, then the
name attempt gated on the potential name splitting into at least two words. -/
def isRegistered (regs : List RegistrantRecord) (ze pn : List Char) : Bool :=
  if regEmailHit regs ze then true
  else if 2 ≤ (splitWs pn).length then regNameHitB regs pn
  else false

/-- Whether the delegate email attempt fires: non-empty Zoom email with a match. -/
def delEmailHit (dels : List DelegateRecord) (ze : List Char) : Bool :=
  !ze.isEmpty && (firstDelEmailMatch dels ze).isSome

/-- Whether the delegate name attempt finds a row. -/
def delNameHitB (dels : List DelegateRecord) (pn : List Char) : Bool :=
  (firstDelNameMatch dels (normChars pn)).isSome

/-- is_delegate after step 4: the email attempt runs unconditionally, the name
attempt only when not already a delegate, registered, and the potential name
has at least two words. -/
def isDelegate (regs : List RegistrantRecord) (dels : List DelegateRecord)
    (ze pn : List Char) : Bool :=
  if delEmailHit dels ze then true
  else if isRegistered regs ze pn = true ∧ 2 ≤ (splitWs pn).length then delNameHitB dels pn
  else false

/-- Surround a string with single quotes, as the f-string traces do. -/
def q (s : String) : String := "\x27" ++ s ++ "\x27"

/-- The registrant email-match trace entry. -/
def regEmailRule (ze be : String) : String :=
  "Registered: Zoom email " ++ q ze ++ " == CiviCRM Billing-Email " ++ q be

/-- The registrant name-match trace entry. -/
def regNameRule (pn sn : String) : String :=
  "Registered: Zoom name " ++ q pn ++ " ~ CiviCRM Sort Name " ++ q sn

/-- The delegate email-match trace entry. -/
def delEmailRule (ze de : String) : String :=
  "Delegate: Zoom email " ++ q ze ++ " == Delegate email " ++ q de

/-- The delegate name-match trace entry. -/
def delNameRule (pn dn : String) : String :=
  "Delegate: Zoom name " ++ q pn ++ " ~ Delegate name " ++ q dn

/-- The match_rules entries appended by the registrant stage. -/
def regRules (regs : List RegistrantRecord) (ze pn : List Char) : List String :=
  (if regEmailHit regs ze then
      match firstRegEmailMatch regs ze with
      | some r => [regEmailRule (String.mk ze) r.billing_email]
      | none => []
    else []) ++
  (if regEmailHit regs ze = false ∧ 2 ≤ (splitWs pn).length then
      match firstRegNameMatch regs (normChars pn) with
      | some r => [regNameRule (String.mk pn) (String.mk (sortNameOf r))]
      | none => []
    else [])

/-- The match_rules entries appended by the delegate stage. -/
def delRules (regs : List RegistrantRecord) (dels : List DelegateRecord)
    (ze pn : List Char) : List String :=
  (if delEmailHit dels ze then
      match firstDelEmailMatch dels ze with
      | some d => [delEmailRule (String.mk ze) d.email]
      | none => []
    else []) ++
  (if delEmailHit dels ze = false ∧
      (isRegistered regs ze pn = true ∧ 2 ≤ (splitWs pn).length) then
      match firstDelNameMatch dels (normChars pn) with
      | some d => [delNameRule (String.mk pn) d.full_name]
      | none => []
    else [])

/-- The full match_rules list accumulated for one participant. -/
def matchRulesOf (regs : List RegistrantRecord) (dels : List DelegateRecord)
    (lu : List (List Char × String)) (p : ParticipantRecord) : List String :=
  regRules regs (zoomEmailOf p) (pnOf lu p) ++
    delRules regs dels (zoomEmailOf p) (pnOf lu p)

/-- " | ".join of the match rules. -/
def joinBar : List String → String
  | [] => ""
  | [s] => s
  | s :: t :: rest => s ++ " | " ++ joinBar (t :: rest)

/-- The loop body of analyze_attendance: the annotated record of one participant. -/
def analyze_one (regs : List RegistrantRecord) (dels : List DelegateRecord)
    (lu : List (List Char × String)) (p : ParticipantRecord) : AnnotatedRecord :=
  { zoom_user_name := p.user_name
    email := p.email
    local_group := find_best_group_match p.user_name lu
    registered_label :=
      if isRegistered regs (zoomEmailOf p) (pnOf lu p) then "Registered" else "Unregistered"
    delegate_label :=
      if isDelegate regs dels (zoomEmailOf p) (pnOf lu p) then "Delegate" else "Observer"
    match_rule :=
      if (matchRulesOf regs dels lu p).isEmpty then "No Match Found"
      else joinBar (matchRulesOf regs dels lu p) }

/-- analyze_attendance from GenerateAttendanceSheet.py: build the lookup once,
then annotate the participants in input order. -/
def analyze_attendance (participants : List ParticipantRecord)
    (regs : List RegistrantRecord) (dels : List DelegateRecord)
    (groups_list : List String) : List AnnotatedRecord :=
  participants.map (analyze_one regs dels (build_group_lookup groups_list))

/-- The unmatched view of the summary: rows whose match rule is the sentinel. -/
def unmatched_df (rs : List AnnotatedRecord) : List AnnotatedRecord :=
  rs.filter (fun r => r.match_rule == "No Match Found")

/-- The unregistered view of the summary. -/
def unregistered_df (rs : List AnnotatedRecord) : List AnnotatedRecord :=
  rs.filter (fun r => r.registered_label == "Unregistered")

/-- The delegate rows of the summary. -/
def delegates_rows (rs : List AnnotatedRecord) : List AnnotatedRecord :=
  rs.filter (fun r => r.delegate_label == "Delegate")

/-- Delegate rows whose local group was identified. -/
def represented_groups_rows (rs : List AnnotatedRecord) : List AnnotatedRecord :=
  (delegates_rows rs).filter (fun r => r.local_group != "Unknown")

/-- Helper for pandas nunique: count values not seen before. -/
def countDistinctAux : List String → List String → Nat
  | [], _ => 0
  | s :: rest, seen =>
    if seen.contains s then countDistinctAux rest seen
    else 1 + countDistinctAux rest (s :: seen)

/-- pandas Series.nunique: the number of distinct values in a list. -/
def countDistinct (l : List String) : Nat :=
  countDistinctAux l []

/-- total_groups_with_delegates from GenerateAttendanceSummary.py. -/
def total_groups_with_delegates (rs : List AnnotatedRecord) : Nat :=
  countDistinct ((represented_groups_rows rs).map (fun r => r.local_group))

/-- total_attendees from GenerateAttendanceSummary.py. -/
def total_attendees (rs : List AnnotatedRecord) : Nat := rs.length

/-- unmatched_attendees from GenerateAttendanceSummary.py. -/
def unmatched_attendees (rs : List AnnotatedRecord) : Nat := (unmatched_df rs).length

/-- unregistered_attendees from GenerateAttendanceSummary.py. -/
def unregistered_attendees (rs : List AnnotatedRecord) : Nat := (unregistered_df rs).length

/-- Sort comparison of the delegate roster: by local group, then by user name. -/
def rosterLe (a b : AnnotatedRecord) : Bool :=
  decide (a.local_group < b.local_group) ||
    (a.local_group == b.local_group && decide (a.zoom_user_name ≤ b.zoom_user_name))

/-- Insertion into a sorted list for the roster sort. -/
def insertSorted (r : AnnotatedRecord) : List AnnotatedRecord → List AnnotatedRecord
  | [] => [r]
  | x :: xs => if rosterLe r x then r :: x :: xs else x :: insertSorted r xs

/-- Stable sort of the delegate rows for the roster sheet. -/
def sortRoster : List AnnotatedRecord → List AnnotatedRecord
  | [] => []
  | x :: xs => insertSorted x (sortRoster xs)

/-- delegate_roster_df from GenerateAttendanceSummary.py: the delegate rows
sorted by local group then user name. -/
def delegate_roster_df (rs : List AnnotatedRecord) : List AnnotatedRecord :=
  sortRoster (delegates_rows rs)

/-- The full annotated data sheet: the unfiltered record list. -/
def full_annotated_df (rs : List AnnotatedRecord) : List AnnotatedRecord := rs

/-- ASCII letter test, used by the normalizer described in the specification. -/
def isAsciiLetter (c : Char) : Bool :=
  (decide ('a' ≤ c) && decide (c ≤ 'z')) || (decide ('A' ≤ c) && decide (c ≤ 'Z'))

/-- Collapse of every whitespace run to a single space. -/
def collapseWs : List Char → List Char
  | [] => []
  | c :: rest =>
    if isPyWs c then
      match rest with
      | [] => [' ']
      | d :: _ => if isPyWs d then collapseWs rest else ' ' :: collapseWs rest
    else c :: collapseWs rest

/-- The pronoun tokens listed by the specification, in its order. -/
def pronounTokens : List String := ["they", "them", "her", "him", "she", "he"]

/-- Modelled from the spec: the name normalizer the specification describes -
lowercase, replace every character that is not a letter or whitespace with a
space, remove the pronoun tokens by unguarded substring removal, collapse
whitespace runs to one space, trim.  Stated only to be compared with the
normalize_name definition taken from the source. -/
def claim_normalize (s : String) : String :=
  let l1 := s.data.map lowerChar
  let l2 := l1.map (fun c => if isAsciiLetter c || isPyWs c then c else ' ')
  let l3 := pronounTokens.foldl (fun acc t => removeAllCS acc t.data) l2
  String.mk (stripChars (collapseWs l3))

/-- The amended description of the group matcher, on the word list: when at
least two words exist and the first two words joined by a space form a lookup
key, that entry wins; otherwise a nonempty first word that is a key wins;
otherwise the result is "Unknown". -/
def specFromParts (lu : List (List Char × String)) (parts : List (List Char)) : String :=
  let cand1 : Option String :=
    match parts.head?, parts.tail.head? with
    | some a, some b => lookupFind lu (a ++ ' ' :: b)
    | _, _ => none
  let cand2 : Option String :=
    match parts.head? with
    | some a => lookupFind lu a
    | none => none
  (cand1.orElse (fun _ => cand2)).getD "Unknown"

/-- The amended group matcher: the amended claim, phrased over the word list of
the lowercased display name. -/
def group_match_amended (user_name : String) (lu : List (List Char × String)) : String :=
  specFromParts lu (splitWs (user_name.data.map lowerChar))

/-! Helper lemmas. -/

theorem data_append (s t : String) : (s ++ t).data = s.data ++ t.data := by
  cases s; cases t; rfl

theorem isAlnumLower_lowerChar_ws {c : Char} (h : isPyWs c = true) :
    isAlnumLower (lowerChar c) = false := by
  simp only [isPyWs, Bool.or_eq_true, beq_iff_eq] at h
  rcases h with ((((h | h) | h) | h) | h) | h <;> subst h <;> decide

theorem normChars_append (a b : List Char) :
    normChars (a ++ b) = normChars a ++ normChars b := by
  simp [normChars, List.filter_append]

theorem normChars_eq_nil_of_ws {l : List Char} (h : ∀ c ∈ l, isPyWs c = true) :
    normChars l = [] := by
  induction l with
  | nil => rfl
  | cons c t ih =>
    have hc := isAlnumLower_lowerChar_ws (h c (List.mem_cons_self c t))
    have ht := ih (fun x hx => h x (List.mem_cons_of_mem _ hx))
    simp [normChars, List.filter_cons, hc] at ht ⊢
    exact ht

theorem normChars_dropWhile (l : List Char) :
    normChars (l.dropWhile isPyWs) = normChars l := by
  induction l with
  | nil => rfl
  | cons c t ih =>
    by_cases h : isPyWs c = true
    · have hc := isAlnumLower_lowerChar_ws h
      rw [List.dropWhile_cons, if_pos h, ih]
      simp [normChars, List.filter_cons, hc]
    · rw [List.dropWhile_cons, if_neg h]

theorem normChars_stripChars (l : List Char) :
    normChars (stripChars l) = normChars l := by
  unfold stripChars
  have h1 : normChars (l.dropWhile isPyWs) = normChars l := normChars_dropWhile l
  set m := l.dropWhile isPyWs with hm
  have h2 : m.reverse.takeWhile isPyWs ++ m.reverse.dropWhile isPyWs = m.reverse :=
    List.takeWhile_append_dropWhile isPyWs m.reverse
  have h3 : m = (m.reverse.dropWhile isPyWs).reverse ++ (m.reverse.takeWhile isPyWs).reverse := by
    calc m = m.reverse.reverse := (List.reverse_reverse m).symm
      _ = (m.reverse.takeWhile isPyWs ++ m.reverse.dropWhile isPyWs).reverse := by rw [h2]
      _ = (m.reverse.dropWhile isPyWs).reverse ++ (m.reverse.takeWhile isPyWs).reverse := by
          rw [List.reverse_append]
  have h4 : normChars ((m.reverse.takeWhile isPyWs).reverse) = [] := by
    apply normChars_eq_nil_of_ws
    intro c hc
    rw [List.mem_reverse] at hc
    exact List.mem_takeWhile_imp hc
  have h5 : normChars m =
      normChars ((m.reverse.dropWhile isPyWs).reverse) ++
        normChars ((m.reverse.takeWhile isPyWs).reverse) := by
    conv_lhs => rw [h3]
    exact normChars_append _ _
  rw [h4, List.append_nil] at h5
  rw [← h5, h1]

theorem startsWithChars_self_append (a b : List Char) :
    startsWithChars a (a ++ b) = true := by
  induction a with
  | nil => rfl
  | cons c t ih => simp [startsWithChars, ih]

theorem joinBar_cons_startsWith (x : String) (rest : List String) :
    startsWithChars x.data (joinBar (x :: rest)).data = true := by
  cases rest with
  | nil =>
    have := startsWithChars_self_append x.data []
    simpa [joinBar] using this
  | cons y t =>
    show startsWithChars x.data (x ++ " | " ++ joinBar (y :: t)).data = true
    rw [data_append, data_append, List.append_assoc]
    exact startsWithChars_self_append _ _

theorem occursIn_nil (l : List Char) : occursIn [] l = true := by
  cases l <;> simp [occursIn, startsWithChars, List.isEmpty]

theorem find?_isSome_of_mem {α : Type} {p : α → Bool} {l : List α} {a : α}
    (ha : a ∈ l) (hp : p a = true) : (l.find? p).isSome = true := by
  induction l with
  | nil => cases ha
  | cons x t ih =>
    rcases List.mem_cons.mp ha with h | h
    · subst h; simp [List.find?_cons, hp]
    · cases hx : p x
      · simp only [List.find?_cons, hx]
        exact ih h
      · simp only [List.find?_cons, hx, Option.isSome_some]

theorem containsChar_append_cons (c : Char) (xs ys : List Char) :
    containsChar c (xs ++ c :: ys) = true := by
  induction xs with
  | nil => simp [containsChar]
  | cons a t ih => simp [containsChar, ih]

theorem splitFirstComma_reassemble {l : List Char} (h : containsChar ',' l = true) :
    (splitFirstComma l).1 ++ ',' :: (splitFirstComma l).2 = l := by
  induction l with
  | nil => simp [containsChar] at h
  | cons c t ih =>
    by_cases hc : c == ','
    · have : c = ',' := by simpa using hc
      subst this
      simp [splitFirstComma]
    · have hc' : (c == ',') = false := by simpa using hc
      have ht : containsChar ',' t = true := by
        simpa [containsChar, hc'] using h
      simp [splitFirstComma, hc', ih ht]

theorem lookupFind_append_single (d : List (List Char × String)) (k : List Char) (v : String)
    (k' : List Char) (hnone : d.any (fun p => p.1 == k) = false) :
    lookupFind (d ++ [(k, v)]) k' = if k' = k then some v else lookupFind d k' := by
  induction d with
  | nil =>
    by_cases h : k' = k
    · subst h; simp [lookupFind, List.find?]
    · have : (k == k') = false := by simpa using fun e => h (e.symm)
      simp [lookupFind, List.find?, h, this]
  | cons a t ih =>
    simp only [List.any_cons, Bool.or_eq_false_iff] at hnone
    obtain ⟨ha, ht⟩ := hnone
    cases hpa : (a.1 == k')
    · have := ih ht
      simp only [List.cons_append, lookupFind, List.find?_cons, hpa] at this ⊢
      by_cases h : k' = k
      · simpa [h] using this
      · simpa [h] using this
    · have hk : k' ≠ k := by
        intro e
        subst e
        rw [hpa] at ha
        cases ha
      simp only [List.cons_append, lookupFind, List.find?_cons, hpa, if_neg hk]

theorem lookupFind_map_replace (d : List (List Char × String)) (k : List Char) (v : String)
    (k' : List Char) :
    lookupFind (d.map (fun p => if p.1 = k then (k, v) else p)) k' =
      if k' = k then (if d.any (fun p => p.1 == k) then some v else none)
      else lookupFind d k' := by
  induction d with
  | nil => by_cases h : k' = k <;> simp [lookupFind, h]
  | cons a t ih =>
    by_cases hak : a.1 = k
    · by_cases hk : k' = k
      · subst hk
        simp [lookupFind, List.find?_cons, hak, List.any_cons]
      · have hbk : (k == k') = false := by simpa using fun e => hk e.symm
        have hbk2 : (a.1 == k') = false := by
          rw [hak]; exact hbk
        simp only [List.map_cons, if_pos hak, lookupFind, List.find?_cons, hbk] at ih ⊢
        simpa [hk, hbk2, lookupFind] using ih
    · cases hpa : (a.1 == k')
      · have hank : (a.1 == k) = false := by simpa using hak
        simp only [List.map_cons, if_neg hak, lookupFind, List.find?_cons, hpa,
          List.any_cons, hank, Bool.false_or] at ih ⊢
        exact ih
      · have hk : k' ≠ k := by
          intro e
          subst e
          exact hak (by simpa using hpa)
        simp only [List.map_cons, if_neg hak, lookupFind, List.find?_cons, hpa, if_neg hk]

theorem lookupFind_dictInsert (d : List (List Char × String)) (k : List Char) (v : String)
    (k' : List Char) :
    lookupFind (dictInsert d k v) k' = if k' = k then some v else lookupFind d k' := by
  unfold dictInsert
  by_cases hany : d.any (fun p => p.1 == k) = true
  · rw [if_pos hany, lookupFind_map_replace, hany]
    simp
  · have h' : d.any (fun p => p.1 == k) = false := Bool.eq_false_iff.mpr hany
    rw [if_neg hany, lookupFind_append_single d k v k' h']

theorem filter_filter_and {α : Type} (p q : α → Bool) (l : List α) :
    (l.filter p).filter q = l.filter (fun a => p a && q a) := by
  induction l with
  | nil => rfl
  | cons a t ih => cases hp : p a <;> cases hq : q a <;> simp [List.filter_cons, hp, hq, ih]

theorem mem_insertSorted (r x : AnnotatedRecord) (l : List AnnotatedRecord) :
    x ∈ insertSorted r l ↔ x = r ∨ x ∈ l := by
  induction l with
  | nil => simp [insertSorted]
  | cons a t ih =>
    by_cases h : rosterLe r a = true
    · simp [insertSorted, h, List.mem_cons]
    · simp only [insertSorted, if_neg h, List.mem_cons, ih]
      tauto

theorem mem_sortRoster (x : AnnotatedRecord) (l : List AnnotatedRecord) :
    x ∈ sortRoster l ↔ x ∈ l := by
  induction l with
  | nil => simp [sortRoster]
  | cons a t ih => simp [sortRoster, mem_insertSorted, ih, List.mem_cons]

theorem regRules_of_emailHit (regs : List RegistrantRecord) (ze pn : List Char)
    (h : regEmailHit regs ze = true) :
    ∃ r, firstRegEmailMatch regs ze = some r ∧
      regRules regs ze pn = [regEmailRule (String.mk ze) r.billing_email] := by
  have hs : (firstRegEmailMatch regs ze).isSome = true := by
    have := h
    unfold regEmailHit at this
    exact (Bool.and_eq_true _ _).mp this |>.2
  obtain ⟨r, hr⟩ := Option.isSome_iff_exists.mp hs
  refine ⟨r, hr, ?_⟩
  simp [regRules, h, hr]

theorem isRegistered_regRules_ne_nil (regs : List RegistrantRecord) (ze pn : List Char)
    (h : isRegistered regs ze pn = true) : regRules regs ze pn ≠ [] := by
  by_cases hE : regEmailHit regs ze = true
  · obtain ⟨r, hr, hrr⟩ := regRules_of_emailHit regs ze pn hE
    rw [hrr]
    simp
  · have hE' : regEmailHit regs ze = false := Bool.eq_false_iff.mpr hE
    unfold isRegistered at h
    rw [if_neg hE] at h
    by_cases hL : 2 ≤ (splitWs pn).length
    · rw [if_pos hL] at h
      obtain ⟨r, hr⟩ := Option.isSome_iff_exists.mp h
      simp [regRules, hE', hL, hr]
    · rw [if_neg hL] at h
      cases h

theorem delRules_of_emailHit (dels : List DelegateRecord)
    (regs : List RegistrantRecord) (ze pn : List Char)
    (h : delEmailHit dels ze = true) :
    ∃ d, firstDelEmailMatch dels ze = some d ∧
      delRules regs dels ze pn = [delEmailRule (String.mk ze) d.email] := by
  have hs : (firstDelEmailMatch dels ze).isSome = true := by
    have := h
    unfold delEmailHit at this
    exact (Bool.and_eq_true _ _).mp this |>.2
  obtain ⟨d, hd⟩ := Option.isSome_iff_exists.mp hs
  refine ⟨d, hd, ?_⟩
  simp [delRules, h, hd]

theorem delRules_isEmpty_eq (regs : List RegistrantRecord) (dels : List DelegateRecord)
    (ze pn : List Char) :
    (delRules regs dels ze pn).isEmpty = !(isDelegate regs dels ze pn) := by
  by_cases hE : delEmailHit dels ze = true
  · obtain ⟨d, hd, hdd⟩ := delRules_of_emailHit dels regs ze pn hE
    rw [hdd]
    unfold isDelegate
    rw [if_pos hE]
    rfl
  · have hE' : delEmailHit dels ze = false := Bool.eq_false_iff.mpr hE
    by_cases hG : isRegistered regs ze pn = true ∧ 2 ≤ (splitWs pn).length
    · cases hF : firstDelNameMatch dels (normChars pn) with
      | none =>
        have hB : delNameHitB dels pn = false := by
          unfold delNameHitB
          rw [hF]
          rfl
        unfold delRules isDelegate
        rw [if_neg hE, if_pos hG]
        simp [hE', hG, hF, hB]
      | some d =>
        have hB : delNameHitB dels pn = true := by
          unfold delNameHitB
          rw [hF]
          rfl
        unfold delRules isDelegate
        rw [if_neg hE, if_pos hG]
        simp [hE', hG, hF, hB]
    · unfold delRules isDelegate
      rw [if_neg hE, if_neg hG]
      simp [hE', hG]

theorem isDelegate_eq (regs : List RegistrantRecord) (dels : List DelegateRecord)
    (ze pn : List Char) :
    isDelegate regs dels ze pn =
      (delEmailHit dels ze ||
        (isRegistered regs ze pn && decide (2 ≤ (splitWs pn).length) &&
          delNameHitB dels pn)) := by
  unfold isDelegate
  by_cases hE : delEmailHit dels ze = true
  · rw [if_pos hE, hE]
    rfl
  · have hE' : delEmailHit dels ze = false := Bool.eq_false_iff.mpr hE
    rw [if_neg hE, hE']
    by_cases hR : isRegistered regs ze pn = true
    · by_cases hL : 2 ≤ (splitWs pn).length
      · rw [if_pos ⟨hR, hL⟩]
        simp [hR, hL]
      · rw [if_neg (by intro h; exact hL h.2)]
        simp [hL]
    · have hR' : isRegistered regs ze pn = false := Bool.eq_false_iff.mpr hR
      rw [if_neg (by intro h; exact hR h.1)]
      simp [hR']

theorem matchFromParts_eq_spec (lu : List (List Char × String)) (parts : List (List Char)) :
    matchFromParts lu parts = specFromParts lu parts := by
  cases parts with
  | nil => rfl
  | cons a t =>
    cases t with
    | nil =>
      cases h : lookupFind lu a <;>
        simp [matchFromParts, specFromParts, h, Option.orElse]
    | cons b t2 =>
      cases h1 : lookupFind lu (a ++ ' ' :: b) <;>
        cases h2 : lookupFind lu a <;>
          simp [matchFromParts, specFromParts, h1, h2, Option.orElse]

/-! Claim theorems. -/

/-- C1, counterexample: on display name "John Smith (he/him) Kiama" with groups
["Kiama Greens", "Canada Bay Greens"], find_best_group_match returns "Unknown",
not "Kiama Greens" as the claim asserts. -/
theorem C1_counterexample :
    find_best_group_match "John Smith (he/him) Kiama"
        (build_group_lookup ["Kiama Greens", "Canada Bay Greens"]) = "Unknown" ∧
    ("Unknown" : String) ≠ "Kiama Greens" := by
  exact ⟨rfl, by decide⟩

/-- C1 (amended): the matcher lowercases and whitespace-splits the display
name; when at least two words exist and the first two words joined by one
space form a lookup key it returns that group, otherwise when the first word
is a lookup key it returns that group, otherwise "Unknown"; no normalization,
whole-word scan over the lookup, or space-stripped substring pass occurs.  On
"John Smith (he/him) Kiama" with the example groups the result is "Unknown". -/
theorem C1_theorem :
    (∀ (user_name : String) (lu : List (List Char × String)),
      find_best_group_match user_name lu = group_match_amended user_name lu) ∧
    find_best_group_match "John Smith (he/him) Kiama"
        (build_group_lookup ["Kiama Greens", "Canada Bay Greens"]) = "Unknown" := by
  exact ⟨fun user_name lu => matchFromParts_eq_spec lu _, rfl⟩

/-- C2, counterexample: the source normalize_name maps "Sher" to "sher",
while the normalizer described by the claim (pronoun-token removal included)
maps it to "s"; the two functions differ. -/
theorem C2_counterexample :
    normalize_name "Sher" = "sher" ∧ claim_normalize "Sher" = "s" ∧
    normalize_name "Sher" ≠ claim_normalize "Sher" := by
  exact ⟨rfl, by decide, by decide⟩

/-- C2 (amended): normalize_name lowercases its input and deletes every
character that is not a lowercase ASCII letter or digit; whitespace is
deleted, digits are kept, and no pronoun-token removal happens.  It is a pure
total function and a homomorphism with respect to concatenation. -/
theorem C2_theorem :
    (∀ s : String, (normalize_name s).data = (s.data.map lowerChar).filter isAlnumLower) ∧
    (∀ s t : String, normalize_name (s ++ t) = normalize_name s ++ normalize_name t) ∧
    normalize_name "Sher" = "sher" ∧
    normalize_name "John-Smith 23" = "johnsmith23" := by
  refine ⟨fun s => rfl, fun s t => ?_, rfl, rfl⟩
  show String.mk (normChars (s ++ t).data) = normalize_name s ++ normalize_name t
  rw [data_append, normChars_append]
  rfl

/-- C3, counterexample: a participant who is not registered still gets
delegate = true with a delegate trace entry, through the ungated email-based
delegate match; the claimed registration gate (no configuration flag exists
in the code) does not block the delegate stage. -/
theorem C3_counterexample :
    (analyze_one [] [⟨"Q", "d@x.com"⟩] [] ⟨"x y", "d@x.com"⟩).registered_label
        = "Unregistered" ∧
    (analyze_one [] [⟨"Q", "d@x.com"⟩] [] ⟨"x y", "d@x.com"⟩).delegate_label
        = "Delegate" ∧
    (analyze_one [] [⟨"Q", "d@x.com"⟩] [] ⟨"x y", "d@x.com"⟩).match_rule
        = delEmailRule "d@x.com" "d@x.com" := by
  exact ⟨rfl, rfl, rfl⟩

/-- C3 (amended): there is no delegates_not_registered flag; the email-based
delegate match runs unconditionally, while only the name-based delegate match
is gated, on registered being true and the residual name having at least two
words; and a participant is marked with no delegate trace entry exactly when
neither delegate rule fires. -/
theorem C3_theorem : ∀ (regs : List RegistrantRecord) (dels : List DelegateRecord)
    (ze pn : List Char),
    isDelegate regs dels ze pn =
      (delEmailHit dels ze ||
        (isRegistered regs ze pn && decide (2 ≤ (splitWs pn).length) &&
          delNameHitB dels pn)) ∧
    (delRules regs dels ze pn).isEmpty = !(isDelegate regs dels ze pn) :=
  fun regs dels ze pn => ⟨isDelegate_eq regs dels ze pn, delRules_isEmpty_eq regs dels ze pn⟩

/-- C4, counterexample: a participant matched to a registrant by name keeps
the group guessed from the display name and receives exactly one trace entry;
no registrant-supplied group overwrite and no second refinement trace entry
exist in the code (registrant rows carry no local_group field). -/
theorem C4_counterexample :
    (analyze_one [⟨"", "John", "Smith", ""⟩] [] (build_group_lookup ["Kiama Greens"])
        ⟨"Kiama John Smith", ""⟩).registered_label = "Registered" ∧
    (analyze_one [⟨"", "John", "Smith", ""⟩] [] (build_group_lookup ["Kiama Greens"])
        ⟨"Kiama John Smith", ""⟩).local_group = "Kiama Greens" ∧
    (analyze_one [⟨"", "John", "Smith", ""⟩] [] (build_group_lookup ["Kiama Greens"])
        ⟨"Kiama John Smith", ""⟩).match_rule = regNameRule "John Smith" "Smith, John" := by
  exact ⟨rfl, rfl, rfl⟩

/-- C4 (amended): the registrant table carries no local_group field, so the
registrant stage never changes the local group: every annotated record keeps
exactly the group produced by find_best_group_match on the display name, and
the registrant stage appends at most one trace entry. -/
theorem C4_theorem :
    (∀ (regs : List RegistrantRecord) (dels : List DelegateRecord)
        (lu : List (List Char × String)) (p : ParticipantRecord),
      (analyze_one regs dels lu p).local_group = find_best_group_match p.user_name lu) ∧
    (∀ (regs : List RegistrantRecord) (ze pn : List Char),
      (regRules regs ze pn).length ≤ 1) := by
  refine ⟨fun regs dels lu p => rfl, fun regs ze pn => ?_⟩
  by_cases hE : regEmailHit regs ze = true
  · obtain ⟨r, hr, hrr⟩ := regRules_of_emailHit regs ze pn hE
    rw [hrr]
    simp
  · unfold regRules
    rw [if_neg hE]
    by_cases hL : regEmailHit regs ze = false ∧ 2 ≤ (splitWs pn).length
    · rw [if_pos hL]
      cases hF : firstRegNameMatch regs (normChars pn) <;> simp
    · rw [if_neg hL]
      simp

/-- C5, counterexample: a participant with an empty email and a registrant
with an empty billing email have equal normalized emails, yet the participant
is not marked Registered - the code skips the email match for falsy emails. -/
theorem C5_counterexample :
    emailNorm (ParticipantRecord.mk "x" "").email =
      emailNorm (RegistrantRecord.mk "" "a" "b" "").billing_email ∧
    (analyze_one [⟨"", "a", "b", ""⟩] [] [] ⟨"x", ""⟩).registered_label
        = "Unregistered" := by
  exact ⟨rfl, rfl⟩

/-- C5 (amended): every participant whose lowered, stripped email is non-empty
and equals the lowered, stripped billing email of some registrant is marked
Registered, and the trace string begins with the email-match entry citing the
first matching registrant row. -/
theorem C5_theorem : ∀ (regs : List RegistrantRecord) (dels : List DelegateRecord)
    (lu : List (List Char × String)) (p : ParticipantRecord),
    zoomEmailOf p ≠ [] →
    (∃ r ∈ regs, emailNorm r.billing_email = zoomEmailOf p) →
    (analyze_one regs dels lu p).registered_label = "Registered" ∧
    ∃ r, firstRegEmailMatch regs (zoomEmailOf p) = some r ∧
      startsWithChars (regEmailRule (String.mk (zoomEmailOf p)) r.billing_email).data
        (analyze_one regs dels lu p).match_rule.data = true := by
  intro regs dels lu p hne hex
  obtain ⟨r0, hr0mem, hr0eq⟩ := hex
  have hsome : (firstRegEmailMatch regs (zoomEmailOf p)).isSome = true := by
    apply find?_isSome_of_mem hr0mem
    simp [hr0eq]
  have hhit : regEmailHit regs (zoomEmailOf p) = true := by
    unfold regEmailHit
    rw [hsome, Bool.and_true]
    cases hz : zoomEmailOf p with
    | nil => exact absurd hz hne
    | cons a t => rfl
  obtain ⟨r, hr, hrr⟩ := regRules_of_emailHit regs (zoomEmailOf p) (pnOf lu p) hhit
  have hreg : isRegistered regs (zoomEmailOf p) (pnOf lu p) = true := by
    unfold isRegistered
    rw [if_pos hhit]
  have hrules : matchRulesOf regs dels lu p =
      regEmailRule (String.mk (zoomEmailOf p)) r.billing_email ::
        delRules regs dels (zoomEmailOf p) (pnOf lu p) := by
    unfold matchRulesOf
    rw [hrr]
    rfl
  refine ⟨by simp [analyze_one, hreg], r, hr, ?_⟩
  have hmr : (analyze_one regs dels lu p).match_rule =
      joinBar (matchRulesOf regs dels lu p) := by
    show (if (matchRulesOf regs dels lu p).isEmpty then _ else _) = _
    rw [hrules]
    rfl
  rw [hmr, hrules]
  exact joinBar_cons_startsWith _ _

/-- C5, witness: a concrete participant whose email matches a registrant
billing email up to case and whitespace is marked Registered with the
email-match trace first. -/
theorem C5_witness :
    zoomEmailOf ⟨"n", " a@x.com "⟩ ≠ [] ∧
    (∃ r ∈ [RegistrantRecord.mk "A@X.com" "a" "b" ""],
      emailNorm r.billing_email = zoomEmailOf ⟨"n", " a@x.com "⟩) ∧
    ((analyze_one [⟨"A@X.com", "a", "b", ""⟩] [] [] ⟨"n", " a@x.com "⟩).registered_label
        = "Registered" ∧
      ∃ r, firstRegEmailMatch [⟨"A@X.com", "a", "b", ""⟩]
            (zoomEmailOf ⟨"n", " a@x.com "⟩) = some r ∧
        startsWithChars
          (regEmailRule (String.mk (zoomEmailOf ⟨"n", " a@x.com "⟩)) r.billing_email).data
          (analyze_one [⟨"A@X.com", "a", "b", ""⟩] [] [] ⟨"n", " a@x.com "⟩).match_rule.data
          = true) := by
  refine ⟨by decide, by decide, ?_⟩
  exact C5_theorem [⟨"A@X.com", "a", "b", ""⟩] [] [] ⟨"n", " a@x.com "⟩
    (by decide) (by decide)

/-- C6: each group, processed in list order, inserts its cleaned key and, when
the cleaned key has more than one word, its initials key, both mapping to the
raw group name; a later group overwrites earlier colliding keys silently.  The
example lookup maps "kiama" to "Kiama Greens" and "canada bay" and "cb" to
"Canada Bay Greens". -/
theorem C6_theorem :
    (∀ (gs : List String) (g : String) (k : List Char),
      lookupFind (build_group_lookup (gs ++ [g])) k =
        if (splitWs (cleanedChars g)).length > 1 ∧ k = initialsOf g then some g
        else if k = cleanedChars g then some g
        else lookupFind (build_group_lookup gs) k) ∧
    lookupFind (build_group_lookup ["Kiama Greens", "Canada Bay Greens"]) "kiama".data
        = some "Kiama Greens" ∧
    lookupFind (build_group_lookup ["Kiama Greens", "Canada Bay Greens"]) "canada bay".data
        = some "Canada Bay Greens" ∧
    lookupFind (build_group_lookup ["Kiama Greens", "Canada Bay Greens"]) "cb".data
        = some "Canada Bay Greens" := by
  refine ⟨?_, by decide, by decide, by decide⟩
  intro gs g k
  have hfold : build_group_lookup (gs ++ [g]) = insertGroup (build_group_lookup gs) g := by
    unfold build_group_lookup
    rw [List.foldl_append]
    rfl
  rw [hfold]
  show lookupFind
      (if (splitWs (cleanedChars g)).length > 1 then
        dictInsert (dictInsert (build_group_lookup gs) (cleanedChars g) g) (initialsOf g) g
      else dictInsert (build_group_lookup gs) (cleanedChars g) g) k = _
  by_cases hw : (splitWs (cleanedChars g)).length > 1
  · rw [if_pos hw, lookupFind_dictInsert, lookupFind_dictInsert]
    by_cases hk : k = initialsOf g <;> by_cases hc : k = cleanedChars g <;>
      simp [hw, hk, hc]
  · rw [if_neg hw, lookupFind_dictInsert]
    by_cases hc : k = cleanedChars g <;> simp [hw, hc]

/-- C7: total_groups_with_delegates counts the distinct local groups among the
records labeled Delegate whose local group is not "Unknown"; on delegate
groups A, A, B it equals 2. -/
theorem C7_theorem :
    (∀ rs : List AnnotatedRecord,
      total_groups_with_delegates rs =
        countDistinct ((rs.filter
            (fun r => r.delegate_label == "Delegate" && r.local_group != "Unknown")).map
          (fun r => r.local_group))) ∧
    total_groups_with_delegates
        [⟨"n1", "", "A", "Registered", "Delegate", "t1"⟩,
         ⟨"n2", "", "A", "Registered", "Delegate", "t2"⟩,
         ⟨"n3", "", "B", "Unregistered", "Delegate", "t3"⟩] = 2 := by
  refine ⟨fun rs => ?_, by decide⟩
  unfold total_groups_with_delegates represented_groups_rows delegates_rows
  rw [filter_filter_and]

/-- C8, counterexample: a fully unmatched participant record carries the
sentinel trace, but it appears in the unregistered view as well, not only in
the unmatched view. -/
theorem C8_counterexample :
    (analyze_one [] [] [] ⟨"x", ""⟩).match_rule = "No Match Found" ∧
    analyze_one [] [] [] ⟨"x", ""⟩ ∈ unregistered_df [analyze_one [] [] [] ⟨"x", ""⟩] ∧
    analyze_one [] [] [] ⟨"x", ""⟩ ∈ unmatched_df [analyze_one [] [] [] ⟨"x", ""⟩] := by
  exact ⟨rfl, by decide, by decide⟩

/-- C8 (amended): a participant with no group and no match rule fired yields
the sentinel trace "No Match Found", and its record appears in the unmatched
view, in the unregistered view and in the full table, but not in the delegate
roster. -/
theorem C8_theorem : ∀ (regs : List RegistrantRecord) (dels : List DelegateRecord)
    (lu : List (List Char × String)) (p : ParticipantRecord),
    find_best_group_match p.user_name lu = "Unknown" →
    matchRulesOf regs dels lu p = [] →
    (analyze_one regs dels lu p).match_rule = "No Match Found" ∧
    ∀ rs : List AnnotatedRecord, analyze_one regs dels lu p ∈ rs →
      analyze_one regs dels lu p ∈ unmatched_df rs ∧
      analyze_one regs dels lu p ∈ unregistered_df rs ∧
      analyze_one regs dels lu p ∈ full_annotated_df rs ∧
      analyze_one regs dels lu p ∉ delegate_roster_df rs := by
  intro regs dels lu p hg hrules
  have hsplit : regRules regs (zoomEmailOf p) (pnOf lu p) = [] ∧
      delRules regs dels (zoomEmailOf p) (pnOf lu p) = [] := by
    apply List.append_eq_nil.mp
    simpa [matchRulesOf] using hrules
  have hregF : isRegistered regs (zoomEmailOf p) (pnOf lu p) = false := by
    by_cases h : isRegistered regs (zoomEmailOf p) (pnOf lu p) = true
    · exact absurd hsplit.1 (isRegistered_regRules_ne_nil regs (zoomEmailOf p) (pnOf lu p) h)
    · exact Bool.eq_false_iff.mpr h
  have hdelF : isDelegate regs dels (zoomEmailOf p) (pnOf lu p) = false := by
    have h := delRules_isEmpty_eq regs dels (zoomEmailOf p) (pnOf lu p)
    rw [hsplit.2] at h
    simpa using h.symm
  have hmr : (analyze_one regs dels lu p).match_rule = "No Match Found" := by
    simp [analyze_one, hrules]
  have hlabR : (analyze_one regs dels lu p).registered_label = "Unregistered" := by
    simp [analyze_one, hregF]
  have hlabD : (analyze_one regs dels lu p).delegate_label = "Observer" := by
    simp [analyze_one, hdelF]
  refine ⟨hmr, fun rs hmem => ⟨?_, ?_, hmem, ?_⟩⟩
  · exact List.mem_filter.mpr ⟨hmem, by simp [hmr]⟩
  · exact List.mem_filter.mpr ⟨hmem, by simp [hlabR]⟩
  · intro hcon
    have h1 : analyze_one regs dels lu p ∈ delegates_rows rs :=
      (mem_sortRoster _ _).mp hcon
    have h2 := (List.mem_filter.mp h1).2
    rw [hlabD] at h2
    simp at h2

/-- C8, witness: the fully unmatched participant "x" with empty tables. -/
theorem C8_witness :
    find_best_group_match "x" ([] : List (List Char × String)) = "Unknown" ∧
    matchRulesOf [] [] [] ⟨"x", ""⟩ = [] ∧
    ((analyze_one [] [] [] ⟨"x", ""⟩).match_rule = "No Match Found" ∧
      (analyze_one [] [] [] ⟨"x", ""⟩ ∈ unmatched_df [analyze_one [] [] [] ⟨"x", ""⟩] ∧
       analyze_one [] [] [] ⟨"x", ""⟩ ∈ unregistered_df [analyze_one [] [] [] ⟨"x", ""⟩] ∧
       analyze_one [] [] [] ⟨"x", ""⟩ ∈ full_annotated_df [analyze_one [] [] [] ⟨"x", ""⟩] ∧
       analyze_one [] [] [] ⟨"x", ""⟩ ∉ delegate_roster_df [analyze_one [] [] [] ⟨"x", ""⟩])) := by
  refine ⟨by decide, by decide, ?_, ?_⟩
  · exact (C8_theorem [] [] [] ⟨"x", ""⟩ (by decide) (by decide)).1
  · exact (C8_theorem [] [] [] ⟨"x", ""⟩ (by decide) (by decide)).2
      [analyze_one [] [] [] ⟨"x", ""⟩] (List.mem_cons_self _ _)

/-- C9: when the potential name has fewer than two words, both name-based
containment loops are skipped, so the participant is Registered exactly when
the registrant email attempt fires and Delegate exactly when the delegate
email attempt fires. -/
theorem C9_theorem : ∀ (regs : List RegistrantRecord) (dels : List DelegateRecord)
    (lu : List (List Char × String)) (p : ParticipantRecord),
    (splitWs (pnOf lu p)).length < 2 →
    ((analyze_one regs dels lu p).registered_label = "Registered" ↔
      regEmailHit regs (zoomEmailOf p) = true) ∧
    ((analyze_one regs dels lu p).delegate_label = "Delegate" ↔
      delEmailHit dels (zoomEmailOf p) = true) := by
  intro regs dels lu p hlen
  have hnotle : ¬ 2 ≤ (splitWs (pnOf lu p)).length := by omega
  have hreg : isRegistered regs (zoomEmailOf p) (pnOf lu p) =
      regEmailHit regs (zoomEmailOf p) := by
    unfold isRegistered
    by_cases hE : regEmailHit regs (zoomEmailOf p) = true
    · rw [if_pos hE, hE]
    · rw [if_neg hE, if_neg hnotle, Bool.eq_false_iff.mpr hE]
  have hdel : isDelegate regs dels (zoomEmailOf p) (pnOf lu p) =
      delEmailHit dels (zoomEmailOf p) := by
    unfold isDelegate
    by_cases hE : delEmailHit dels (zoomEmailOf p) = true
    · rw [if_pos hE, hE]
    · rw [if_neg hE, if_neg (fun h => hnotle h.2), Bool.eq_false_iff.mpr hE]
  constructor
  · cases hE : regEmailHit regs (zoomEmailOf p) <;> simp [analyze_one, hreg, hE]
  · cases hE : delEmailHit dels (zoomEmailOf p) <;> simp [analyze_one, hdel, hE]

/-- C9, witness: a one-word participant with a matching registrant email. -/
theorem C9_witness :
    (splitWs (pnOf [] ⟨"bob", "a@x.com"⟩)).length < 2 ∧
    (((analyze_one [⟨"a@x.com", "x", "y", ""⟩] [] [] ⟨"bob", "a@x.com"⟩).registered_label
        = "Registered") ↔
      regEmailHit [⟨"a@x.com", "x", "y", ""⟩] (zoomEmailOf ⟨"bob", "a@x.com"⟩) = true) ∧
    (((analyze_one [⟨"a@x.com", "x", "y", ""⟩] [] [] ⟨"bob", "a@x.com"⟩).delegate_label
        = "Delegate") ↔
      delEmailHit ([] : List DelegateRecord) (zoomEmailOf ⟨"bob", "a@x.com"⟩) = true) := by
  have h := C9_theorem [⟨"a@x.com", "x", "y", ""⟩] [] [] ⟨"bob", "a@x.com"⟩ (by decide)
  exact ⟨by decide, h.1, h.2⟩

/-- C10: a registrant row whose first and last names both normalize to the
empty string passes the bidirectional containment test against every
normalized name, so every participant who reaches the name-matching stage
(email attempt missed, potential name of at least two words) is marked
Registered. -/
theorem C10_theorem : ∀ (regs : List RegistrantRecord) (dels : List DelegateRecord)
    (lu : List (List Char × String)) (p : ParticipantRecord) (r : RegistrantRecord),
    r ∈ regs →
    normalize_name r.first_name = "" →
    normalize_name r.last_name = "" →
    regEmailHit regs (zoomEmailOf p) = false →
    2 ≤ (splitWs (pnOf lu p)).length →
    (analyze_one regs dels lu p).registered_label = "Registered" := by
  intro regs dels lu p r hmem hf hl hE hlen
  have hfd : normChars r.first_name.data = [] := congrArg String.data hf
  have hld : normChars r.last_name.data = [] := congrArg String.data hl
  have hsn : normChars (sortNameOf r) = [] := by
    have he : sortNameOf r = r.last_name.data ++ ([',', ' '] ++ r.first_name.data) := rfl
    rw [he, normChars_append, normChars_append, hld, hfd]
    rfl
  have hcomma : containsChar ',' (sortNameOf r) = true := by
    have he : sortNameOf r = r.last_name.data ++ ',' :: (' ' :: r.first_name.data) := rfl
    rw [he]
    exact containsChar_append_cons ',' r.last_name.data (' ' :: r.first_name.data)
  have hre := splitFirstComma_reassemble hcomma
  have h2 : normChars ((splitFirstComma (sortNameOf r)).1 ++
      ',' :: (splitFirstComma (sortNameOf r)).2) = [] := by
    rw [hre]
    exact hsn
  rw [normChars_append] at h2
  obtain ⟨ha, hb⟩ := List.append_eq_nil.mp h2
  have hb2 : normChars (splitFirstComma (sortNameOf r)).2 = [] := by
    have hb' : normChars ([','] ++ (splitFirstComma (sortNameOf r)).2) = [] := hb
    rw [normChars_append] at hb'
    simpa using (List.append_eq_nil.mp hb').2
  have hforall : ∀ nzn, regNameHit nzn r = true := by
    intro nzn
    have hnrn : normChars (stripChars (splitFirstComma (sortNameOf r)).2 ++
        stripChars (splitFirstComma (sortNameOf r)).1) = [] := by
      rw [normChars_append, normChars_stripChars, normChars_stripChars, ha, hb2]
      rfl
    unfold regNameHit
    rw [if_pos hcomma]
    simp only [hnrn, occursIn_nil, Bool.true_or]
  have hhitB : regNameHitB regs (pnOf lu p) = true := by
    unfold regNameHitB firstRegNameMatch
    exact find?_isSome_of_mem hmem (hforall _)
  have hE' : ¬ regEmailHit regs (zoomEmailOf p) = true := by
    rw [hE]
    decide
  have hreg : isRegistered regs (zoomEmailOf p) (pnOf lu p) = true := by
    unfold isRegistered
    rw [if_neg hE', if_pos hlen]
    exact hhitB
  simp [analyze_one, hreg]

/-- C10, witness: a registrant row with empty names registers the two-word
participant "john smith" who has no email. -/
theorem C10_witness :
    (RegistrantRecord.mk "" "" "" "") ∈ [RegistrantRecord.mk "" "" "" ""] ∧
    normalize_name (RegistrantRecord.mk "" "" "" "").first_name = "" ∧
    normalize_name (RegistrantRecord.mk "" "" "" "").last_name = "" ∧
    regEmailHit [RegistrantRecord.mk "" "" "" ""] (zoomEmailOf ⟨"john smith", ""⟩) = false ∧
    2 ≤ (splitWs (pnOf [] ⟨"john smith", ""⟩)).length ∧
    (analyze_one [⟨"", "", "", ""⟩] [] [] ⟨"john smith", ""⟩).registered_label
        = "Registered" := by
  refine ⟨by decide, rfl, rfl, by decide, by decide, ?_⟩
  exact C10_theorem [⟨"", "", "", ""⟩] [] [] ⟨"john smith", ""⟩ ⟨"", "", "", ""⟩
    (by decide) rfl rfl (by decide) (by decide)
